import Mathlib

/-!
# Word-frequency text analyzer: a shallow embedding

This file embeds the word-frequency analyzer of
`src/application/app.py` (method `StudentsServer.analyze_text_file`,
lines 213-264) in Lean 4 and proves the claims of the specification about it.

Modelling conventions:

* The uploaded file content is modelled as the `List Char` obtained by
  UTF-8-decoding the bytes (`file_content.decode()`); valid UTF-8 decoding
  is a bijection between byte strings and character strings that preserves
  emptiness, so the `len(file_content) == 0` test on bytes becomes a test
  on the character list.
* `str.lower()` is modelled by `Char.toLower` (exact on ASCII, which is
  the only range the tokenizer keeps; characters outside ASCII are
  mapped to themselves).
* The `re` word characters of Python (`\w`, the class deciding the `\b`
  word-boundary assertions) are modelled on the ASCII range:
  letters, digits and underscore.  Python additionally counts non-ASCII
  Unicode word characters; the model is exact on ASCII text, and the
  theorems about tokenization that are meant to transfer to the Python
  program verbatim are therefore stated for ASCII input.
* The two `HTTP 400` rejections and the Python `ValueError` from `max()`
  on an empty sequence become the constructors of `AnalyzeError`; the
  `HTTP 200` response body becomes `AnalysisResult`.
-/

/-- A word character for the Python `\b` boundary assertion (`\w` class),
restricted to the ASCII range: an ASCII letter, an ASCII digit, or `_`.
(CPython additionally counts non-ASCII Unicode word characters; this model
is exact on ASCII text.) -/
def isWordChar (c : Char) : Bool :=
  c.isAlpha || c.isDigit || c == '_'

/-- State of the left-to-right scan performed by
`re.findall(r"\b[A-Za-z]+\b", text)` (line 228 of `app.py`):

* `outside` — the previous character (if any) was a non-word character,
  so a `\b` boundary is available and a match may start at the next
  ASCII letter;
* `inWord acc` — we are inside a run of ASCII letters that started at a
  `\b` boundary; `acc` is the run read so far (a candidate match, which
  becomes a match only if the run ends at a `\b` boundary, i.e. at a
  non-word character or the end of the input);
* `dead` — we are inside a run of word characters that can no longer
  produce a match: either it started with a non-letter word character
  (digit or underscore, so `[A-Za-z]` fails at its head and `\b` fails
  inside it), or a letter run was followed by a non-letter word
  character (so the trailing `\b` assertion failed, and every later
  start position inside the word run lacks a leading `\b`). -/
inductive ScanState where
  | outside : ScanState
  | inWord : List Char → ScanState
  | dead : ScanState

/-- The scan of `re.findall(r"\b[A-Za-z]+\b", text)`: emits, in order of
appearance, the matches of the pattern.  A match is a run of ASCII
letters whose neighbouring characters (when they exist) are both
non-word characters: `\b` holds before the first letter only if the
previous character is not a word character, `[A-Za-z]+` is greedy and
cannot backtrack to a shorter run (a shorter run ends before a letter,
where `\b` fails), and the trailing `\b` holds only if the character
after the run is not a word character. -/
def reScan : ScanState → List Char → List (List Char)
  | .outside, [] => []
  | .inWord acc, [] => [acc]
  | .dead, [] => []
  | .outside, c :: cs =>
    if c.isAlpha then reScan (.inWord [c]) cs
    else if isWordChar c then reScan .dead cs
    else reScan .outside cs
  | .inWord acc, c :: cs =>
    if c.isAlpha then reScan (.inWord (acc ++ [c])) cs
    else if isWordChar c then reScan .dead cs
    else acc :: reScan .outside cs
  | .dead, c :: cs =>
    if isWordChar c then reScan .dead cs else reScan .outside cs

/-- Line 228 of `app.py`:
`words = re.findall(r"\b[A-Za-z]+\b", file_content.decode().lower())`. -/
def findWords (content : List Char) : List String :=
  (reScan .outside (content.map Char.toLower)).map String.mk

/-- Helper for `runsP`: `cur` is the (possibly empty) run of
`p`-characters read so far and not yet emitted. -/
def runsPAux (p : Char → Bool) : List Char → List Char → List (List Char)
  | cur, [] => if cur = [] then [] else [cur]
  | cur, c :: cs =>
    if p c then runsPAux p (cur ++ [c]) cs
    else if cur = [] then runsPAux p [] cs
    else cur :: runsPAux p [] cs

/-- The maximal runs of characters satisfying `p`, in order: the
(non-empty) blocks that remain after cutting the list at every character
that does not satisfy `p`. -/
def runsP (p : Char → Bool) (s : List Char) : List (List Char) :=
  runsPAux p [] s

/-- Modelled from the words of the spec (§4.1 tokenization rule, as read by
claim C1): "extract maximal runs of ASCII alphabetic characters bounded
by non-alphabetic characters or string boundaries" from the lowercased
text, with digits, punctuation and other non-letters acting as
separators.  This is the claimed tokenizer, to be compared with
`findWords`, the one embedded from the source. -/
def claimedTokens (content : List Char) : List String :=
  (runsP Char.isAlpha (content.map Char.toLower)).map String.mk

/-- One iteration of the counting loop, lines 235-237 of `app.py`:
`word_counts[word] = word_counts.get(word, 0) + 1` on a Python dict,
modelled as an insertion-ordered association list with unique keys:
an existing key keeps its position and its value is incremented, a new
key is appended with value 1. -/
def dictIncr (d : List (String × Nat)) (w : String) : List (String × Nat) :=
  if w ∈ d.map Prod.fst then
    d.map (fun p => if p.1 = w then (p.1, p.2 + 1) else p)
  else d ++ [(w, 1)]

/-- Lines 235-237 of `app.py`: the `word_counts` dict built by folding
the counting loop over the word list. -/
def word_counts_of (words : List String) : List (String × Nat) :=
  words.foldl dictIncr []

/-- The distinct elements of a list in order of first occurrence: the
key order of a Python dict filled by the counting loop. -/
def firstOcc : List String → List String
  | [] => []
  | w :: ws => w :: (firstOcc ws).filter (fun v => v != w)

/-- Failure outcomes of the analyzer. `emptyFile` and `noValidWords` are
the two `HTTP 400` rejections (lines 225 and 232 of `app.py`,
`{"Error": "Empty file"}` and `{"Error": "No valid words in file"}`);
`maxOnEmpty` models the `ValueError` that the Python `max()` would raise on
line 243 if `word_counts.values()` were empty. -/
inductive AnalyzeError where
  | emptyFile : AnalyzeError
  | noValidWords : AnalyzeError
  | maxOnEmpty : AnalyzeError
deriving DecidableEq, Repr

/-- The success response body assembled in lines 247-261 of `app.py`:
`filename`, `total_words` and `highest_frequency` are always present,
`most_frequent_words` and `message` only on some branches (absent keys
modelled as `none`). -/
structure AnalysisResult where
  filename : String
  total_words : Nat
  highest_frequency : Nat
  most_frequent_words : Option (List String) := none
  message : Option String := none
deriving DecidableEq, Repr

/-- Lines 242-261 of `app.py`, given the word list, the display name and
`max_frequency = max(word_counts.values())`: build the response dict.
`most_frequent_words` is the comprehension of line 244; the branch on
line 254 tests `len(set(word_counts.values())) == 1` (modelled with
`dedup`); the branch on line 260 tests `len(words) == 1` and overwrites
`message`. -/
def deriveResult (words : List String) (filename : String) (max_frequency : Nat) :
    AnalysisResult :=
  let word_counts := word_counts_of words
  let most_frequent_words := (word_counts.filter (fun p => p.2 = max_frequency)).map Prod.fst
  let base : AnalysisResult :=
    { filename := filename
      total_words := words.length
      highest_frequency := max_frequency }
  let r :=
    if (word_counts.map Prod.snd).dedup.length = 1 then
      { base with message := some ("All words have the same frequency of " ++ toString max_frequency) }
    else
      { base with most_frequent_words := some most_frequent_words }
  if words.length = 1 then { r with message := some "Only one word found in the file" } else r

/-- The analyzer, lines 220-264 of `app.py`: reject empty content
(line 224), tokenize (line 228), reject a wordless file (line 231),
count, take the maximum count (line 243) and assemble the response. -/
def analyze_text_file (content : List Char) (filename : String) :
    Except AnalyzeError AnalysisResult :=
  if content.length = 0 then .error .emptyFile
  else
    let words := findWords content
    if words.length = 0 then .error .noValidWords
    else
      match ((word_counts_of words).map Prod.snd).max? with
      | none => .error .maxOnEmpty
      | some max_frequency => .ok (deriveResult words filename max_frequency)

/-- A result with its display name erased (`filename` made empty),
used to state that the display name influences nothing else. -/
def scrubFilename (r : AnalysisResult) : AnalysisResult :=
  { r with filename := "" }

/-- Sample input of §8 of the spec in which every word occurs once. -/
def textUniform : List Char := "This is a test file.".data

/-- Sample input of §8 of the spec with counts `cat: 3, dog: 2, bird: 1`. -/
def textMixed : List Char := "cat dog cat bird dog cat".data

/-- Sample input of §8 of the spec consisting of exactly one word. -/
def textSingle : List Char := "hello".data

/-- Sample input of §8 of the spec with bytes but no alphabetic run. -/
def textNoWords : List Char := "1234 !!! ???".data

/-- Expected response for `textUniform` (§8 of the spec). -/
def resultUniform : AnalysisResult :=
  { filename := "test.txt", total_words := 5, highest_frequency := 1,
    message := some "All words have the same frequency of 1" }

/-- Expected response for `textMixed` (§8 of the spec). -/
def resultMixed : AnalysisResult :=
  { filename := "pets.txt", total_words := 6, highest_frequency := 3,
    most_frequent_words := some ["cat"] }

/-- Expected response for `textSingle` (§8 of the spec). -/
def resultSingle : AnalysisResult :=
  { filename := "h.txt", total_words := 1, highest_frequency := 1,
    message := some "Only one word found in the file" }

-- Sanity checks of the embedding against §8 of the spec.
example : findWords ("This is a test file.".data) = ["this", "is", "a", "test", "file"] := by decide
example : findWords ("cat dog cat bird dog cat".data) =
    ["cat", "dog", "cat", "bird", "dog", "cat"] := by decide
example : word_counts_of ["cat", "dog", "cat", "bird", "dog", "cat"] =
    [("cat", 3), ("dog", 2), ("bird", 1)] := by decide
example : analyze_text_file ("cat dog cat bird dog cat".data) "pets.txt" =
    .ok { filename := "pets.txt", total_words := 6, highest_frequency := 3,
          most_frequent_words := some ["cat"] } := rfl
example : analyze_text_file ("This is a test file.".data) "test.txt" =
    .ok { filename := "test.txt", total_words := 5, highest_frequency := 1,
          message := some "All words have the same frequency of 1" } := rfl
example : analyze_text_file ("hello".data) "h.txt" =
    .ok { filename := "h.txt", total_words := 1, highest_frequency := 1,
          message := some "Only one word found in the file" } := rfl
example : analyze_text_file ("1234 !!! ???".data) "x" = .error .noValidWords := rfl
example : analyze_text_file [] "x" = .error .emptyFile := rfl
example : findWords ("ab1cd".data) = [] := by decide

/-! ## The tokenizer: scan states versus maximal runs -/

theorem isWordChar_of_isAlpha {c : Char} (h : c.isAlpha = true) : isWordChar c = true := by
  simp [isWordChar, h]

/-- The regex scan, started in any of its three states, computes the
maximal `isWordChar`-runs that consist entirely of ASCII letters:
conjunct one is the initial state, conjunct two an in-progress candidate
match `cur`, conjunct three a word run poisoned by a non-letter. -/
theorem reScan_eq_filtered_runsPAux (s : List Char) :
    reScan .outside s = (runsPAux isWordChar [] s).filter (fun r => r.all Char.isAlpha)
    ∧ (∀ cur, cur ≠ [] → cur.all Char.isAlpha = true →
        reScan (.inWord cur) s = (runsPAux isWordChar cur s).filter (fun r => r.all Char.isAlpha))
    ∧ (∀ cur, cur ≠ [] → cur.all Char.isAlpha = false →
        reScan .dead s = (runsPAux isWordChar cur s).filter (fun r => r.all Char.isAlpha)) := by
  induction s with
  | nil =>
    refine ⟨by simp [reScan, runsPAux], fun cur hne hall => ?_, fun cur hne hall => ?_⟩
    · simp [reScan, runsPAux, hne, hall]
    · simp [reScan, runsPAux, hne, hall]
  | cons c cs ih =>
    obtain ⟨ih1, ih2, ih3⟩ := ih
    by_cases hA : c.isAlpha
    · have hW : isWordChar c = true := isWordChar_of_isAlpha hA
      refine ⟨?_, fun cur hne hall => ?_, fun cur hne hall => ?_⟩
      · have e1 : reScan .outside (c :: cs) = reScan (.inWord [c]) cs := by
          simp [reScan, hA]
        have e2 : runsPAux isWordChar [] (c :: cs) = runsPAux isWordChar [c] cs := by
          simp [runsPAux, hW]
        rw [e1, e2]
        exact ih2 [c] (by simp) (by simp [hA])
      · have e1 : reScan (.inWord cur) (c :: cs) = reScan (.inWord (cur ++ [c])) cs := by
          simp [reScan, hA]
        have e2 : runsPAux isWordChar cur (c :: cs) = runsPAux isWordChar (cur ++ [c]) cs := by
          simp [runsPAux, hW]
        rw [e1, e2]
        exact ih2 (cur ++ [c]) (by simp) (by simp [List.all_append, hall, hA])
      · have e1 : reScan ScanState.dead (c :: cs) = reScan ScanState.dead cs := by
          simp [reScan, hW]
        have e2 : runsPAux isWordChar cur (c :: cs) = runsPAux isWordChar (cur ++ [c]) cs := by
          simp [runsPAux, hW]
        rw [e1, e2]
        exact ih3 (cur ++ [c]) (by simp) (by simp [List.all_append, hall])
    · by_cases hW : isWordChar c
      · refine ⟨?_, fun cur hne hall => ?_, fun cur hne hall => ?_⟩
        · have e1 : reScan .outside (c :: cs) = reScan ScanState.dead cs := by
            simp [reScan, hA, hW]
          have e2 : runsPAux isWordChar [] (c :: cs) = runsPAux isWordChar [c] cs := by
            simp [runsPAux, hW]
          rw [e1, e2]
          exact ih3 [c] (by simp) (by simp [hA])
        · have e1 : reScan (.inWord cur) (c :: cs) = reScan ScanState.dead cs := by
            simp [reScan, hA, hW]
          have e2 : runsPAux isWordChar cur (c :: cs) = runsPAux isWordChar (cur ++ [c]) cs := by
            simp [runsPAux, hW]
          rw [e1, e2]
          exact ih3 (cur ++ [c]) (by simp) (by simp [List.all_append, hA])
        · have e1 : reScan ScanState.dead (c :: cs) = reScan ScanState.dead cs := by
            simp [reScan, hW]
          have e2 : runsPAux isWordChar cur (c :: cs) = runsPAux isWordChar (cur ++ [c]) cs := by
            simp [runsPAux, hW]
          rw [e1, e2]
          exact ih3 (cur ++ [c]) (by simp) (by simp [List.all_append, hall])
      · refine ⟨?_, fun cur hne hall => ?_, fun cur hne hall => ?_⟩
        · have e1 : reScan .outside (c :: cs) = reScan .outside cs := by
            simp [reScan, hA, hW]
          have e2 : runsPAux isWordChar [] (c :: cs) = runsPAux isWordChar [] cs := by
            simp [runsPAux, hW]
          rw [e1, e2]
          exact ih1
        · have e1 : reScan (.inWord cur) (c :: cs) = cur :: reScan .outside cs := by
            simp [reScan, hA, hW]
          have e2 : runsPAux isWordChar cur (c :: cs) = cur :: runsPAux isWordChar [] cs := by
            simp [runsPAux, hW, hne]
          rw [e1, e2, List.filter_cons]
          simp [hall, ih1]
        · have e1 : reScan ScanState.dead (c :: cs) = reScan .outside cs := by
            simp [reScan, hW]
          have e2 : runsPAux isWordChar cur (c :: cs) = cur :: runsPAux isWordChar [] cs := by
            simp [runsPAux, hW, hne]
          rw [e1, e2, List.filter_cons]
          simp [hall, ih1]

/-- C1 (amended): for byte input decoding to ASCII text, the tokens
produced by the analyzer are exactly the maximal runs of word characters
(ASCII letters, digits, underscore) of the lowercased text that consist
entirely of ASCII letters — so whitespace and punctuation act as
separators, but a run of ASCII letters adjacent to a digit or an
underscore is not extracted at all. -/
theorem c1_tokens_are_alphabetic_word_runs (content : List Char)
    (hascii : ∀ ch ∈ content, ch.toNat < 128) :
    findWords content =
      ((runsP isWordChar (content.map Char.toLower)).filter
        (fun r => r.all Char.isAlpha)).map String.mk := by
  unfold findWords runsP
  rw [(reScan_eq_filtered_runsPAux (content.map Char.toLower)).1]

/-- C1 (counterexample): on input `"ab1cd"` the analyzer produces no
token at all — the digit `1` is a word character for `\b`, so neither
`ab` nor `cd` sits at a word boundary — while the tokenization
rule claimed by C1 (maximal runs of ASCII alphabetic characters bounded
by non-alphabetic characters, digits acting as separators) would produce
`["ab", "cd"]`; the whole call in fact fails with `noValidWords`. -/
theorem c1_counterexample :
    findWords ("ab1cd".data) = [] ∧
      claimedTokens ("ab1cd".data) = ["ab", "cd"] ∧
      findWords ("ab1cd".data) ≠ claimedTokens ("ab1cd".data) ∧
      analyze_text_file ("ab1cd".data) "t.txt" = .error .noValidWords :=
  ⟨by decide, by decide, by decide, rfl⟩

/-- Witness for the amended C1 at the concrete ASCII input `"ab1 cd"`:
only `cd` is a token (`ab` is glued to the digit). -/
theorem c1_amended_witness :
    (∀ ch ∈ ("ab1 cd".data), ch.toNat < 128) ∧
      findWords ("ab1 cd".data) =
        ((runsP isWordChar (("ab1 cd".data).map Char.toLower)).filter
          (fun r => r.all Char.isAlpha)).map String.mk :=
  ⟨by decide, c1_tokens_are_alphabetic_word_runs ("ab1 cd".data) (by decide)⟩

/-! ## The counting dict: values, keys, order -/

/-- One counting step: if the association list `d` represents the
multiset `f` (entries carry `f` of their key, missing keys have `f = 0`),
then `dictIncr d v` represents `f` with the count of `v` bumped by 1. -/
theorem dictIncr_val {d : List (String × Nat)} {f : String → Nat}
    (h1 : ∀ w k, (w, k) ∈ d → k = f w)
    (h2 : ∀ w, w ∉ d.map Prod.fst → f w = 0) (v : String) :
    (∀ w k, (w, k) ∈ dictIncr d v → k = f w + if v = w then 1 else 0) ∧
    (∀ w, w ∉ (dictIncr d v).map Prod.fst → f w + (if v = w then 1 else 0) = 0) := by
  unfold dictIncr
  by_cases hv : v ∈ d.map Prod.fst
  · rw [if_pos hv]
    constructor
    · intro w k hm
      simp only [List.mem_map] at hm
      obtain ⟨⟨pw, pk⟩, hp, hg⟩ := hm
      by_cases hpv : pw = v
      · simp only [hpv, if_pos rfl] at hg
        cases hg
        rw [h1 v pk (hpv ▸ hp)]
        simp
      · simp only [if_neg hpv] at hg
        cases hg
        rw [h1 w k hp, if_neg (fun h => hpv h.symm)]
        simp
    · intro w hm
      have hkeys : (d.map (fun p => if p.1 = v then (p.1, p.2 + 1) else p)).map Prod.fst
          = d.map Prod.fst := by
        rw [List.map_map]
        apply List.map_congr_left
        intro p hp
        by_cases hpv : p.1 = v <;> simp [hpv]
      rw [hkeys] at hm
      have hvw : ¬ v = w := fun h => hm (h ▸ hv)
      simp [h2 w hm, hvw]
  · rw [if_neg hv]
    constructor
    · intro w k hm
      rcases List.mem_append.mp hm with hin | hnew
      · have hk := h1 w k hin
        have hwk : w ∈ d.map Prod.fst := List.mem_map.mpr ⟨(w, k), hin, rfl⟩
        have hvw : ¬ v = w := fun h => hv (h ▸ hwk)
        simp [hk, hvw]
      · simp only [List.mem_singleton, Prod.mk.injEq] at hnew
        obtain ⟨rfl, rfl⟩ := hnew
        simp [h2 w hv]
    · intro w hm
      rw [List.map_append] at hm
      simp only [List.mem_append, List.map_cons, List.map_nil, List.mem_singleton] at hm
      push_neg at hm
      obtain ⟨hm1, hm2⟩ := hm
      have hvw : ¬ v = w := fun h => hm2 h.symm
      simp [h2 w hm1, hvw]

/-- Folding the counting loop over `ws` adds `ws.count w` to the
represented count of every word `w`. -/
theorem foldl_dictIncr_val (ws : List String) :
    ∀ (d : List (String × Nat)) (f : String → Nat),
      (∀ w k, (w, k) ∈ d → k = f w) →
      (∀ w, w ∉ d.map Prod.fst → f w = 0) →
      (∀ w k, (w, k) ∈ ws.foldl dictIncr d → k = f w + ws.count w) ∧
      (∀ w, w ∉ (ws.foldl dictIncr d).map Prod.fst → f w + ws.count w = 0) := by
  induction ws with
  | nil =>
    intro d f h1 h2
    constructor
    · intro w k hm
      simpa using h1 w k hm
    · intro w hm
      simpa using h2 w hm
  | cons v ws ih =>
    intro d f h1 h2
    have hd := dictIncr_val h1 h2 v
    have hrec := ih (dictIncr d v) (fun w => f w + if v = w then 1 else 0) hd.1 hd.2
    constructor
    · intro w k hm
      have hk := hrec.1 w k (by simpa [List.foldl_cons] using hm)
      rw [List.count_cons]
      by_cases hvw : v = w <;> simp [hvw] at hk ⊢ <;> omega
    · intro w hm
      have hk := hrec.2 w (by simpa [List.foldl_cons] using hm)
      rw [List.count_cons]
      by_cases hvw : v = w <;> simp [hvw] at hk ⊢ <;> omega

/-- Every entry of `word_counts` carries the number of occurrences of
its key in the word list (lines 235-237 of `app.py`). -/
theorem word_counts_val {ws : List String} {w : String} {k : Nat}
    (h : (w, k) ∈ word_counts_of ws) : k = ws.count w := by
  have := (foldl_dictIncr_val ws [] (fun _ => 0) (by simp) (by simp)).1 w k h
  simpa using this

/-- Key bookkeeping of one counting step: an existing key leaves the key
list unchanged, a new key is appended. -/
theorem dictIncr_keys (d : List (String × Nat)) (v : String) :
    (dictIncr d v).map Prod.fst =
      if v ∈ d.map Prod.fst then d.map Prod.fst else d.map Prod.fst ++ [v] := by
  unfold dictIncr
  by_cases hv : v ∈ d.map Prod.fst
  · rw [if_pos hv, if_pos hv, List.map_map]
    apply List.map_congr_left
    intro p hp
    by_cases hpv : p.1 = v <;> simp [hpv]
  · rw [if_neg hv, if_neg hv, List.map_append]
    rfl

/-- The keys produced by folding the counting loop over `ws` are the
keys of the start dict followed by the first occurrences of the new
words, in input order. -/
theorem foldl_dictIncr_keys (ws : List String) :
    ∀ d : List (String × Nat),
      (ws.foldl dictIncr d).map Prod.fst =
        d.map Prod.fst ++ (firstOcc ws).filter (fun w => !decide (w ∈ d.map Prod.fst)) := by
  induction ws with
  | nil =>
    intro d
    simp [firstOcc]
  | cons v ws ih =>
    intro d
    rw [List.foldl_cons, ih (dictIncr d v), dictIncr_keys]
    have hfo : firstOcc (v :: ws) = v :: (firstOcc ws).filter (fun x => x != v) := rfl
    by_cases hv : v ∈ d.map Prod.fst
    · simp only [if_pos hv, hfo, List.filter_cons]
      have hvf : (!decide (v ∈ d.map Prod.fst)) = false := by simp [hv]
      rw [hvf, if_neg Bool.false_ne_true]
      rw [List.filter_filter]
      refine congrArg (d.map Prod.fst ++ ·) ?_
      apply List.filter_congr
      intro x hx
      by_cases hxv : x = v
      · subst hxv
        simp [hv]
      · simp [hxv]
    · simp only [if_neg hv, hfo, List.filter_cons]
      have hvf : (!decide (v ∈ d.map Prod.fst)) = true := by simp [hv]
      rw [hvf, if_pos rfl]
      rw [List.filter_filter]
      simp only [List.append_assoc, List.singleton_append]
      refine congrArg (d.map Prod.fst ++ ·) ?_
      refine congrArg (v :: ·) ?_
      apply List.filter_congr
      intro x hx
      by_cases hxv : x = v
      · subst hxv
        simp
      · have hbv : (x == v) = false := by simp [hxv]
        simp [List.mem_append, List.mem_singleton, hxv, hbv, bne]

/-- The keys of `word_counts`, in order, are the distinct words in order
of first occurrence (Python dict insertion order). -/
theorem word_counts_keys (ws : List String) :
    (word_counts_of ws).map Prod.fst = firstOcc ws := by
  have h := foldl_dictIncr_keys ws []
  simpa [word_counts_of] using h

theorem firstOcc_mem {w : String} : ∀ {ws : List String}, w ∈ firstOcc ws ↔ w ∈ ws := by
  intro ws
  induction ws with
  | nil => simp [firstOcc]
  | cons v t ih =>
    simp only [firstOcc, List.mem_cons, List.mem_filter, ih]
    by_cases hwv : w = v
    · simp [hwv]
    · have hb : (w != v) = true := by simp [bne, hwv]
      simp [hwv, hb]

theorem firstOcc_nodup : ∀ ws : List String, (firstOcc ws).Nodup := by
  intro ws
  induction ws with
  | nil => simp [firstOcc]
  | cons v t ih =>
    simp only [firstOcc]
    rw [List.nodup_cons]
    constructor
    · intro hmem
      rw [List.mem_filter] at hmem
      simp at hmem
    · exact ih.filter _

/-- The key of every entry occurs in the word list. -/
theorem entry_mem_words {ws : List String} {w : String} {k : Nat}
    (h : (w, k) ∈ word_counts_of ws) : w ∈ ws := by
  have hk : w ∈ (word_counts_of ws).map Prod.fst := List.mem_map.mpr ⟨(w, k), h, rfl⟩
  rw [word_counts_keys] at hk
  exact firstOcc_mem.mp hk

/-- Every word of the list has its entry, carrying its occurrence count. -/
theorem mem_word_counts {ws : List String} {w : String} (h : w ∈ ws) :
    (w, ws.count w) ∈ word_counts_of ws := by
  have hk : w ∈ (word_counts_of ws).map Prod.fst := by
    rw [word_counts_keys]
    exact firstOcc_mem.mpr h
  obtain ⟨⟨pw, pk⟩, hp, hfst⟩ := List.mem_map.mp hk
  cases hfst
  rw [← word_counts_val hp]
  exact hp

theorem values_ne_nil {ws : List String} (h : ws ≠ []) :
    (word_counts_of ws).map Prod.snd ≠ [] := by
  intro hv
  rw [List.map_eq_nil] at hv
  have hk := word_counts_keys ws
  rw [hv] at hk
  cases ws with
  | nil => exact h rfl
  | cons v t => simp [firstOcc] at hk

/-- A non-empty list has exactly one distinct element iff all its
elements are equal (the `len(set(...)) == 1` test of line 254). -/
theorem dedup_length_one {l : List Nat} (hne : l ≠ []) :
    l.dedup.length = 1 ↔ ∃ a, ∀ x ∈ l, x = a := by
  constructor
  · intro h
    obtain ⟨a, ha⟩ := List.length_eq_one.mp h
    refine ⟨a, fun x hx => ?_⟩
    have hd : x ∈ l.dedup := List.mem_dedup.mpr hx
    rw [ha] at hd
    simpa using hd
  · rintro ⟨a, ha⟩
    have hmem : a ∈ l.dedup := by
      obtain ⟨y, hy⟩ := List.exists_mem_of_ne_nil l hne
      have hya := ha y hy
      rw [hya] at hy
      exact List.mem_dedup.mpr hy
    have hall : ∀ x ∈ l.dedup, x = a := fun x hx => ha x (List.mem_dedup.mp hx)
    have hnd := List.nodup_dedup l
    cases hd : l.dedup with
    | nil =>
      rw [hd] at hmem
      simp at hmem
    | cons x xs =>
      cases xs with
      | nil =>
        rfl
      | cons y ys =>
        exfalso
        rw [hd] at hnd hall
        have hx : x = a := hall x (by simp)
        have hy : y = a := hall y (by simp)
        rw [List.nodup_cons] at hnd
        refine hnd.1 ?_
        rw [hx, hy]
        simp

/-- The condition of line 254, characterized over the word list: the distinct
count values collapse to one value iff all words occur equally often. -/
theorem uniform_iff {ws : List String} (hne : ws ≠ []) :
    ((word_counts_of ws).map Prod.snd).dedup.length = 1 ↔
      ∀ v ∈ ws, ∀ w ∈ ws, ws.count v = ws.count w := by
  rw [dedup_length_one (values_ne_nil hne)]
  constructor
  · rintro ⟨a, ha⟩ v hv w hw
    have h1 := ha (ws.count v) (List.mem_map.mpr ⟨(v, ws.count v), mem_word_counts hv, rfl⟩)
    have h2 := ha (ws.count w) (List.mem_map.mpr ⟨(w, ws.count w), mem_word_counts hw, rfl⟩)
    rw [h1, h2]
  · intro h
    obtain ⟨w0, hw0⟩ := List.exists_mem_of_ne_nil ws hne
    refine ⟨ws.count w0, fun x hx => ?_⟩
    obtain ⟨⟨pw, pk⟩, hp, hsnd⟩ := List.mem_map.mp hx
    cases hsnd
    rw [word_counts_val hp]
    exact h pw (entry_mem_words hp) w0 hw0

/-- On line 243, `max(word_counts.values())` is attained by the count
of some word and bounds the count of every word. -/
theorem max_count_spec {ws : List String} {m : Nat}
    (hm : ((word_counts_of ws).map Prod.snd).max? = some m) :
    (∃ w ∈ ws, ws.count w = m) ∧ ∀ w ∈ ws, ws.count w ≤ m := by
  rw [List.max?_eq_some_iff'] at hm
  obtain ⟨hmem, hle⟩ := hm
  constructor
  · obtain ⟨⟨pw, pk⟩, hp, hsnd⟩ := List.mem_map.mp hmem
    cases hsnd
    exact ⟨pw, entry_mem_words hp, (word_counts_val hp).symm⟩
  · intro w hw
    exact hle (ws.count w) (List.mem_map.mpr ⟨(w, ws.count w), mem_word_counts hw, rfl⟩)

/-! ## Control flow of the analyzer -/

theorem findWords_nil : findWords [] = [] := rfl

/-- Whenever tokenization finds at least one word, the analyzer succeeds
and its result is `deriveResult` at the maximum count. -/
theorem analyze_ok {content : List Char} (filename : String)
    (hw : findWords content ≠ []) :
    ∃ m, ((word_counts_of (findWords content)).map Prod.snd).max? = some m ∧
      analyze_text_file content filename =
        .ok (deriveResult (findWords content) filename m) := by
  have hc : content.length ≠ 0 := by
    intro h0
    rw [List.length_eq_zero] at h0
    exact hw (h0 ▸ findWords_nil)
  have hwl : (findWords content).length ≠ 0 := by
    intro h0
    exact hw (List.length_eq_zero.mp h0)
  cases hm : ((word_counts_of (findWords content)).map Prod.snd).max? with
  | none => exact absurd (List.max?_eq_none_iff.mp hm) (values_ne_nil hw)
  | some m =>
    refine ⟨m, rfl, ?_⟩
    simp only [analyze_text_file, if_neg hc, if_neg hwl, hm]

/-- Inversion: a successful analysis means tokenization found words, the
maximum count exists, and the result is `deriveResult` at it. -/
theorem analyze_ok_inv {content : List Char} {filename : String} {r : AnalysisResult}
    (h : analyze_text_file content filename = .ok r) :
    findWords content ≠ [] ∧
      ∃ m, ((word_counts_of (findWords content)).map Prod.snd).max? = some m ∧
        r = deriveResult (findWords content) filename m := by
  by_cases hc : content.length = 0
  · simp [analyze_text_file, hc] at h
  · by_cases hwl : (findWords content).length = 0
    · simp [analyze_text_file, hc, hwl] at h
    · have hw : findWords content ≠ [] := fun h0 => hwl (by rw [h0]; rfl)
      obtain ⟨m, hm, heq⟩ := analyze_ok filename hw
      rw [heq] at h
      injection h with h2
      exact ⟨hw, m, hm, h2.symm⟩

theorem deriveResult_total (ws : List String) (f : String) (m : Nat) :
    (deriveResult ws f m).total_words = ws.length := by
  simp only [deriveResult]
  split_ifs <;> rfl

theorem deriveResult_highest (ws : List String) (f : String) (m : Nat) :
    (deriveResult ws f m).highest_frequency = m := by
  simp only [deriveResult]
  split_ifs <;> rfl

theorem deriveResult_name (ws : List String) (f : String) (m : Nat) :
    (deriveResult ws f m).filename = f := by
  simp only [deriveResult]
  split_ifs <;> rfl

theorem deriveResult_scrub (ws : List String) (f : String) (m : Nat) :
    scrubFilename (deriveResult ws f m) = deriveResult ws "" m := by
  simp only [deriveResult, scrubFilename]
  split_ifs <;> rfl

/-- Uniform-frequency branch (line 254, condition true), more than one
word: `message` is set, `most_frequent_words` stays absent. -/
theorem deriveResult_uniform {ws : List String} {f : String} {m : Nat}
    (hu : ((word_counts_of ws).map Prod.snd).dedup.length = 1) (hl : ws.length ≠ 1) :
    (deriveResult ws f m).message =
        some ("All words have the same frequency of " ++ toString m) ∧
      (deriveResult ws f m).most_frequent_words = none := by
  simp only [deriveResult, if_pos hu, if_neg hl]
  refine ⟨?_, ?_⟩ <;> trivial

/-- Non-uniform branch (line 257): `most_frequent_words` is set,
`message` stays absent. -/
theorem deriveResult_nonuniform {ws : List String} {f : String} {m : Nat}
    (hu : ¬ ((word_counts_of ws).map Prod.snd).dedup.length = 1) (hl : ws.length ≠ 1) :
    (deriveResult ws f m).message = none ∧
      (deriveResult ws f m).most_frequent_words =
        some (((word_counts_of ws).filter (fun p => p.2 = m)).map Prod.fst) := by
  simp only [deriveResult, if_neg hu, if_neg hl]
  refine ⟨?_, ?_⟩ <;> trivial

/-- Single-word case (line 260): the dedicated message wins and
`most_frequent_words` is absent (a single word always lands in the
uniform-frequency branch first). -/
theorem deriveResult_single {ws : List String} {f : String} {m : Nat}
    (hl : ws.length = 1) :
    (deriveResult ws f m).message = some "Only one word found in the file" ∧
      (deriveResult ws f m).most_frequent_words = none := by
  obtain ⟨w, rfl⟩ := List.length_eq_one.mp hl
  have hwc : word_counts_of [w] = [(w, 1)] := by
    simp [word_counts_of, dictIncr]
  have hu : ((word_counts_of [w]).map Prod.snd).dedup.length = 1 := by
    rw [hwc]
    rfl
  simp only [deriveResult, if_pos hu, if_pos hl]
  refine ⟨?_, ?_⟩ <;> trivial

/-- Whatever branch produced it, a present `most_frequent_words` is the
key list of the entries whose count is `m` (the comprehension of line 244). -/
theorem deriveResult_mfw_inv {ws : List String} {f : String} {m : Nat} {l : List String}
    (h : (deriveResult ws f m).most_frequent_words = some l) :
    l = ((word_counts_of ws).filter (fun p => p.2 = m)).map Prod.fst := by
  simp only [deriveResult] at h
  split_ifs at h <;> simp_all

/-- Filtering the dict on a count value and keeping keys is the same as
filtering the key list by the counts of the words. -/
theorem filter_snd_map_fst {m : Nat} (g : String → Nat) :
    ∀ d : List (String × Nat), (∀ p ∈ d, p.2 = g p.1) →
      (d.filter (fun p => p.2 = m)).map Prod.fst =
        (d.map Prod.fst).filter (fun w => g w = m) := by
  intro d
  induction d with
  | nil => intro _; rfl
  | cons p t ih =>
    intro hg
    have hp : p.2 = g p.1 := hg p (List.mem_cons_self p t)
    have ht : ∀ q ∈ t, q.2 = g q.1 := fun q hq => hg q (List.mem_cons_of_mem p hq)
    rw [List.filter_cons, List.map_cons, List.filter_cons]
    by_cases hc : p.2 = m
    · have hgm : g p.1 = m := by rw [← hp]; exact hc
      rw [if_pos (by simpa using hc), if_pos (by simpa using hgm), List.map_cons]
      exact congrArg (p.1 :: ·) (ih ht)
    · have hgm : ¬ g p.1 = m := by rw [← hp]; exact hc
      rw [if_neg (by simpa using hc), if_neg (by simpa using hgm)]
      exact ih ht

/-! ## The claims -/

/-- C2: on every input whose tokenization yields at least one word the
call succeeds, `highest_frequency` is the maximum occurrence count over
all words (attained, and an upper bound), and whenever
`most_frequent_words` is present a word belongs to it exactly when its
count equals `highest_frequency` — the set is sound and complete. -/
theorem c2_highest_frequency_sound_complete (content : List Char) (filename : String)
    (hw : findWords content ≠ []) :
    ∃ r, analyze_text_file content filename = .ok r ∧
      (∀ w ∈ findWords content, (findWords content).count w ≤ r.highest_frequency) ∧
      (∃ w ∈ findWords content, (findWords content).count w = r.highest_frequency) ∧
      (∀ l, r.most_frequent_words = some l →
        ∀ w, w ∈ l ↔
          w ∈ findWords content ∧ (findWords content).count w = r.highest_frequency) := by
  obtain ⟨m, hm, heq⟩ := analyze_ok filename hw
  refine ⟨_, heq, ?_, ?_, ?_⟩
  · intro w hwmem
    rw [deriveResult_highest]
    exact (max_count_spec hm).2 w hwmem
  · rw [deriveResult_highest]
    exact (max_count_spec hm).1
  · intro l hl w
    rw [deriveResult_highest]
    have hlv := deriveResult_mfw_inv hl
    subst hlv
    constructor
    · intro hwl
      obtain ⟨⟨pw, pk⟩, hpf, hfst⟩ := List.mem_map.mp hwl
      rw [List.mem_filter] at hpf
      obtain ⟨hpd, hpk⟩ := hpf
      cases hfst
      have hpk2 : pk = m := by simpa using hpk
      refine ⟨entry_mem_words hpd, ?_⟩
      rw [← word_counts_val hpd, hpk2]
    · rintro ⟨hwmem, hcount⟩
      refine List.mem_map.mpr ⟨(w, (findWords content).count w), ?_, rfl⟩
      rw [List.mem_filter]
      exact ⟨mem_word_counts hwmem, by simpa using hcount⟩

/-- Witness for C2 at `"cat dog cat bird dog cat"`. -/
theorem c2_witness :
    findWords textMixed ≠ [] ∧
      ∃ r, analyze_text_file textMixed "pets.txt" = .ok r ∧
        (∀ w ∈ findWords textMixed, (findWords textMixed).count w ≤ r.highest_frequency) ∧
        (∃ w ∈ findWords textMixed, (findWords textMixed).count w = r.highest_frequency) ∧
        (∀ l, r.most_frequent_words = some l →
          ∀ w, w ∈ l ↔
            w ∈ findWords textMixed ∧ (findWords textMixed).count w = r.highest_frequency) :=
  ⟨by decide, c2_highest_frequency_sound_complete textMixed "pets.txt" (by decide)⟩

/-- C3: on every success exactly one of `most_frequent_words` and the
uniform-frequency message is populated: the single-word case sets the
dedicated message and no word set; with several words, uniform counts
set the "All words have the same frequency of k" message (with k the
shared count, which is the highest frequency) and no word set, and
non-uniform counts set the word set and no message. -/
theorem c3_message_mfw_exclusive (content : List Char) (filename : String)
    (r : AnalysisResult) (h : analyze_text_file content filename = .ok r) :
    ((findWords content).length = 1 →
        r.message = some "Only one word found in the file" ∧
        r.most_frequent_words = none) ∧
    ((findWords content).length ≠ 1 →
      ((∀ v ∈ findWords content, ∀ w ∈ findWords content,
            (findWords content).count v = (findWords content).count w) →
          r.message =
              some ("All words have the same frequency of " ++ toString r.highest_frequency) ∧
          r.most_frequent_words = none ∧
          ∀ w ∈ findWords content, (findWords content).count w = r.highest_frequency) ∧
      ((¬ ∀ v ∈ findWords content, ∀ w ∈ findWords content,
            (findWords content).count v = (findWords content).count w) →
          r.message = none ∧ ∃ l, r.most_frequent_words = some l)) := by
  obtain ⟨hw, m, hm, hr⟩ := analyze_ok_inv h
  subst hr
  constructor
  · intro h1
    exact deriveResult_single h1
  · intro h1
    constructor
    · intro hu
      have hu2 : ((word_counts_of (findWords content)).map Prod.snd).dedup.length = 1 :=
        (uniform_iff hw).mpr hu
      have hmsg := @deriveResult_uniform (findWords content) filename m hu2 h1
      refine ⟨?_, hmsg.2, ?_⟩
      · rw [deriveResult_highest]
        exact hmsg.1
      · intro w hwmem
        rw [deriveResult_highest]
        obtain ⟨w0, hw0, hw0c⟩ := (max_count_spec hm).1
        rw [← hw0c]
        exact hu w hwmem w0 hw0
    · intro hnu
      have hu2 : ¬ ((word_counts_of (findWords content)).map Prod.snd).dedup.length = 1 :=
        fun hc => hnu ((uniform_iff hw).mp hc)
      have hmsg := @deriveResult_nonuniform (findWords content) filename m hu2 h1
      exact ⟨hmsg.1, _, hmsg.2⟩

/-- Witness for C3 at `"This is a test file."` (five words, all counts
equal, so the uniform-frequency message is set and the word set absent). -/
theorem c3_witness :
    ((findWords textUniform).length = 1 →
        resultUniform.message = some "Only one word found in the file" ∧
        resultUniform.most_frequent_words = none) ∧
    ((findWords textUniform).length ≠ 1 →
      ((∀ v ∈ findWords textUniform, ∀ w ∈ findWords textUniform,
            (findWords textUniform).count v = (findWords textUniform).count w) →
          resultUniform.message =
              some ("All words have the same frequency of " ++
                toString resultUniform.highest_frequency) ∧
          resultUniform.most_frequent_words = none ∧
          ∀ w ∈ findWords textUniform,
            (findWords textUniform).count w = resultUniform.highest_frequency) ∧
      ((¬ ∀ v ∈ findWords textUniform, ∀ w ∈ findWords textUniform,
            (findWords textUniform).count v = (findWords textUniform).count w) →
          resultUniform.message = none ∧
          ∃ l, resultUniform.most_frequent_words = some l)) :=
  c3_message_mfw_exclusive textUniform "test.txt" resultUniform (by rfl)

/-- C4: on an input that tokenizes to exactly one word the analysis
succeeds with `total_words = 1`, and the single-word message is the one
in the result — it overwrites the uniform-frequency message that the
same input also triggers — with `most_frequent_words` absent. -/
theorem c4_single_word_message (content : List Char) (filename : String)
    (r : AnalysisResult) (h : analyze_text_file content filename = .ok r)
    (h1 : (findWords content).length = 1) :
    r.total_words = 1 ∧
      r.message = some "Only one word found in the file" ∧
      r.most_frequent_words = none := by
  obtain ⟨hw, m, hm, hr⟩ := analyze_ok_inv h
  subst hr
  refine ⟨?_, (deriveResult_single h1).1, (deriveResult_single h1).2⟩
  rw [deriveResult_total, h1]

/-- Witness for C4 at `"hello"`. -/
theorem c4_witness :
    resultSingle.total_words = 1 ∧
      resultSingle.message = some "Only one word found in the file" ∧
      resultSingle.most_frequent_words = none :=
  c4_single_word_message textSingle "h.txt" resultSingle (by rfl) (by rfl)

/-- C5: zero-length content is rejected with `EmptyInputError` (the
`HTTP 400` `{"Error": "Empty file"}` response), before tokenization: the
outcome is never `noValidWords` and never a success. -/
theorem c5_empty_input (content : List Char) (filename : String)
    (h : content.length = 0) :
    analyze_text_file content filename = .error .emptyFile := by
  simp [analyze_text_file, h]

/-- Witness for C5 at the empty input. -/
theorem c5_witness :
    ([] : List Char).length = 0 ∧
      analyze_text_file [] "empty.txt" = .error .emptyFile :=
  ⟨rfl, c5_empty_input [] "empty.txt" rfl⟩

/-- C6: non-empty content whose tokenization yields no word is rejected
with `NoWordsFoundError` (the `HTTP 400` `{"Error": "No valid words in
file"}` response) — no partial result is produced. -/
theorem c6_no_words (content : List Char) (filename : String)
    (hc : content ≠ []) (hw : findWords content = []) :
    analyze_text_file content filename = .error .noValidWords := by
  have hlen : content.length ≠ 0 := by
    intro h0
    exact hc (List.length_eq_zero.mp h0)
  simp [analyze_text_file, hlen, hw]

/-- Witness for C6 at `"1234 !!! ???"`. -/
theorem c6_witness :
    textNoWords ≠ [] ∧ findWords textNoWords = [] ∧
      analyze_text_file textNoWords "nums.txt" = .error .noValidWords :=
  ⟨by decide, by decide, c6_no_words textNoWords "nums.txt" (by decide) (by decide)⟩

/-- C7: on every success `total_words` is the number of tokens produced
by the tokenization rule, repeats included (line 240: `len(words)`). -/
theorem c7_total_words (content : List Char) (filename : String)
    (r : AnalysisResult) (h : analyze_text_file content filename = .ok r) :
    r.total_words = (findWords content).length := by
  obtain ⟨hw, m, hm, hr⟩ := analyze_ok_inv h
  subst hr
  exact deriveResult_total _ _ _

/-- Witness for C7 at `"cat dog cat bird dog cat"` (six tokens). -/
theorem c7_witness : resultMixed.total_words = (findWords textMixed).length :=
  c7_total_words textMixed "pets.txt" resultMixed (by rfl)

/-- C8: the display name is echoed back unchanged and influences nothing
else: with the filename field erased, the outcome (success or failure
kind and every other field) is identical for any two filenames. -/
theorem c8_filename_noninterference (content : List Char) (f1 f2 : String) :
    Except.map scrubFilename (analyze_text_file content f1) =
        Except.map scrubFilename (analyze_text_file content f2) ∧
      Except.map AnalysisResult.filename (analyze_text_file content f1) =
        Except.map (fun _ => f1) (analyze_text_file content f1) := by
  by_cases hw : findWords content = []
  · by_cases hc : content.length = 0
    · simp [analyze_text_file, hc, Except.map]
    · simp [analyze_text_file, hc, hw, Except.map]
  · obtain ⟨m, hm, heq1⟩ := analyze_ok f1 hw
    obtain ⟨m2, hm2, heq2⟩ := analyze_ok f2 hw
    have hmm : m = m2 := Option.some.inj (hm ▸ hm2)
    subst hmm
    rw [heq1, heq2]
    constructor
    · simp [Except.map, deriveResult_scrub]
    · simp [Except.map, deriveResult_name]

/-- C9: the maximum on line 243 is never taken over an empty mapping —
the `maxOnEmpty` failure is unreachable — and every success carries
`highest_frequency ≥ 1`. -/
theorem c9_highest_frequency_positive (content : List Char) (filename : String) :
    analyze_text_file content filename ≠ .error .maxOnEmpty ∧
      ∀ r, analyze_text_file content filename = .ok r → 1 ≤ r.highest_frequency := by
  constructor
  · intro hbad
    by_cases hc : content.length = 0
    · simp [analyze_text_file, hc] at hbad
    · by_cases hw : findWords content = []
      · simp [analyze_text_file, hc, hw] at hbad
      · obtain ⟨m, hm, heq⟩ := analyze_ok filename hw
        rw [heq] at hbad
        simp at hbad
  · intro r h
    obtain ⟨hw, m, hm, hr⟩ := analyze_ok_inv h
    subst hr
    rw [deriveResult_highest]
    obtain ⟨w0, hw0, hc0⟩ := (max_count_spec hm).1
    rw [← hc0]
    exact List.count_pos_iff.mpr hw0

/-- Witness for C9 at `"cat dog cat bird dog cat"`. -/
theorem c9_witness :
    analyze_text_file textMixed "pets.txt" ≠ .error .maxOnEmpty ∧
      1 ≤ resultMixed.highest_frequency :=
  ⟨(c9_highest_frequency_positive textMixed "pets.txt").1,
    (c9_highest_frequency_positive textMixed "pets.txt").2 resultMixed (by rfl)⟩

/-- C10: a present `most_frequent_words` is non-empty, duplicate-free,
and lists the words whose count is the highest frequency in the order of
their first occurrence in the tokenized input. -/
theorem c10_mfw_order (content : List Char) (filename : String)
    (r : AnalysisResult) (l : List String)
    (h : analyze_text_file content filename = .ok r)
    (hl : r.most_frequent_words = some l) :
    l ≠ [] ∧ l.Nodup ∧
      l = (firstOcc (findWords content)).filter
            (fun w => (findWords content).count w = r.highest_frequency) := by
  obtain ⟨hw, m, hm, hr⟩ := analyze_ok_inv h
  subst hr
  rw [deriveResult_highest]
  have hlv := deriveResult_mfw_inv hl
  have hcounts : ∀ p ∈ word_counts_of (findWords content),
      p.2 = (findWords content).count p.1 := by
    intro p hp
    exact word_counts_val (show (p.1, p.2) ∈ word_counts_of (findWords content) from hp)
  have horder := @filter_snd_map_fst m (fun w => (findWords content).count w)
    (word_counts_of (findWords content)) hcounts
  rw [word_counts_keys] at horder
  refine ⟨?_, ?_, by rw [hlv, horder]⟩
  · obtain ⟨⟨pw, pk⟩, hp, hsnd⟩ := List.mem_map.mp (List.max?_eq_some_iff'.mp hm).1
    cases hsnd
    have hpf : (pw, pk) ∈ (word_counts_of (findWords content)).filter
        (fun p => p.2 = pk) := List.mem_filter.mpr ⟨hp, by simp⟩
    have : pw ∈ l := by
      rw [hlv]
      exact List.mem_map.mpr ⟨(pw, pk), hpf, rfl⟩
    exact List.ne_nil_of_mem this
  · rw [hlv, horder]
    exact (firstOcc_nodup (findWords content)).filter _

/-- Witness for C10 at `"cat dog cat bird dog cat"`:
`most_frequent_words = ["cat"]`. -/
theorem c10_witness :
    (["cat"] : List String) ≠ [] ∧ (["cat"] : List String).Nodup ∧
      ["cat"] = (firstOcc (findWords textMixed)).filter
            (fun w => (findWords textMixed).count w = resultMixed.highest_frequency) :=
  c10_mfw_order textMixed "pets.txt" resultMixed ["cat"] (by rfl) (by rfl)
